import Mathlib

/-!
Verification of the deepicedrain dhdt pipeline (atlxi_dhdt.py).

The pipeline's numerical core consists of two per-point kernels,
`deepicedrain.nanptp` (height range with missing values) and
`deepicedrain.nan_linregress` (linear regression with missing values),
applied element-wise over a huge point set, plus two filtering stages and a
unit rescaling that live in `atlxi_dhdt.py` itself.

Heights and times are embedded as exact rationals; a missing sample
(NaN in the source) is `none : Option ℚ`.  The external square-root and
Student-t routines of the numerics library are abstracted as function
parameters `sqrtQ` and `pFromR`.
-/

namespace DeepIceDrain

/-- Modelled from the spec: a per-point per-cycle sample, a real number or an
explicit missing marker (NaN in the source). -/
abbrev Sample := Option ℚ

/-- Jointly-valid (time, height) pairs: the index positions where BOTH x and y
are valid, in order.  Modelled from the spec: the mask step of
`deepicedrain.nan_linregress`, whose code is not under src/ (only its caller
`atlxi_dhdt.py` is). -/
def jointPairs (x y : List Sample) : List (ℚ × ℚ) :=
  (x.zip y).filterMap fun pq =>
    match pq with
    | (some a, some b) => some (a, b)
    | _ => none

/-- Sum of the x components of a pair list. -/
def sumFst (l : List (ℚ × ℚ)) : ℚ := (l.map fun p => p.1).sum

/-- Sum of the y components of a pair list. -/
def sumSnd (l : List (ℚ × ℚ)) : ℚ := (l.map fun p => p.2).sum

/-- Sum of squared x components. -/
def sumXX (l : List (ℚ × ℚ)) : ℚ := (l.map fun p => p.1 * p.1).sum

/-- Sum of x·y products. -/
def sumXY (l : List (ℚ × ℚ)) : ℚ := (l.map fun p => p.1 * p.2).sum

/-- Sum of squared y components. -/
def sumYY (l : List (ℚ × ℚ)) : ℚ := (l.map fun p => p.2 * p.2).sum

/-- Scaled centered second moment of x: `n·Σx² − (Σx)²`, i.e. n² times the
variance of the x values.  Zero exactly when all x values coincide. -/
def mA (l : List (ℚ × ℚ)) : ℚ := (l.length : ℚ) * sumXX l - (sumFst l) ^ 2

/-- Scaled centered mixed moment: `n·Σxy − Σx·Σy`, n² times the covariance. -/
def mB (l : List (ℚ × ℚ)) : ℚ := (l.length : ℚ) * sumXY l - sumFst l * sumSnd l

/-- Scaled centered second moment of y: `n·Σy² − (Σy)²`. -/
def mC (l : List (ℚ × ℚ)) : ℚ := (l.length : ℚ) * sumYY l - (sumSnd l) ^ 2

/-- Five-tuple of regression outputs; each component is a value or the
invalid/missing sentinel (NaN in the source). -/
structure LinFit where
  slope : Option ℚ
  intercept : Option ℚ
  rvalue : Option ℚ
  pvalue : Option ℚ
  stderr : Option ℚ
  deriving DecidableEq, Repr

/-- The all-invalid five-tuple (the `np.full(5, np.nan)` result). -/
def invalidFit : LinFit := ⟨none, none, none, none, none⟩

/-- Modelled from the spec: the least-squares core (`scipy.stats.linregress`)
on the jointly-valid pairs.  `sqrtQ` abstracts the numerics library's square
root and `pFromR` its two-tailed Student-t p-value routine, taking the degrees
of freedom (n − 2) and the correlation coefficient from which the t-statistic
is derived.  Fewer than 2 pairs, or zero x variance, yield the all-invalid
result before any division is attempted. -/
def linregressValid (sqrtQ : ℚ → ℚ) (pFromR : ℕ → ℚ → ℚ)
    (l : List (ℚ × ℚ)) : LinFit :=
  if l.length < 2 then invalidFit
  else if mA l = 0 then invalidFit
  else
    let n : ℚ := l.length
    let slope := mB l / mA l
    let intercept := (sumSnd l - slope * sumFst l) / n
    let r := mB l / sqrtQ (mA l * mC l)
    { slope := some slope
      intercept := some intercept
      rvalue := some r
      pvalue := some (pFromR (l.length - 2) r)
      stderr := some (sqrtQ (((1 - r ^ 2) * mC l) / (mA l * (n - 2)))) }

/-- Modelled from the spec: `deepicedrain.nan_linregress`, whose code is not
under src/ (only its caller `atlxi_dhdt.py` is): mask both inputs down to the
jointly-valid positions, then run the least-squares core. -/
def nan_linregress (sqrtQ : ℚ → ℚ) (pFromR : ℕ → ℚ → ℚ)
    (x y : List Sample) : LinFit :=
  linregressValid sqrtQ pFromR (jointPairs x y)

/-- Modelled from the spec: `deepicedrain.nanptp`, whose code is not under
src/ (only its caller `atlxi_dhdt.py` is): max(valid) − min(valid) over one
point's samples, or the invalid marker when no valid sample exists. -/
def nanptp (a : List Sample) : Option ℚ :=
  match a.filterMap id with
  | [] => none
  | v :: vs => some (vs.foldl max v - vs.foldl min v)

/-- Source: atlxi_dhdt.py line 276 — convert the regression slope from metres
per nanosecond to metres per year,
`slope = slope_ns * (365.25 * 24 * 60 * 60 * 1_000_000_000)`. -/
def dhdt_slope (slope_ns : ℚ) : ℚ :=
  slope_ns * (365.25 * 24 * 60 * 60 * 1000000000)

/-- Regression stage followed by the per-year rescaling of the slope
(atlxi_dhdt.py lines 245–276): the rescaling is applied to the kernel's slope
output as a post-processing step. -/
def dhdt_pipeline_slope (sqrtQ : ℚ → ℚ) (pFromR : ℕ → ℚ → ℚ)
    (x y : List Sample) : Option ℚ :=
  (nan_linregress sqrtQ pFromR x y).slope.map dhdt_slope

/-- Source: atlxi_dhdt.py line 128 —
`ds.dropna(dim="ref_pt", thresh=2, subset=["h_corr"])`: keep the points having
at least `thresh` valid heights across cycles. -/
def dropna_thresh (thresh : ℕ) (pts : List (List Sample)) : List (List Sample) :=
  pts.filter fun p => decide (thresh ≤ (p.filterMap id).length)

/-- Source: atlxi_dhdt.py line 240 —
`ds.where(cond=ds.h_range > 0.5, drop=True)`: keep the points whose height
range is a valid value strictly greater than the cutoff (an invalid range
compares false and is dropped). -/
def where_hrange (cut : ℚ) (pts : List (List Sample)) : List (List Sample) :=
  pts.filter fun p =>
    match nanptp p with
    | some r => decide (cut < r)
    | none => false

/-- Sum of squared residuals of the line `y = a·x + b` over a pair list. -/
def sse (l : List (ℚ × ℚ)) (a b : ℚ) : ℚ :=
  (l.map fun p => (p.2 - (a * p.1 + b)) ^ 2).sum

/-- Concrete exact square root on rationals whose numerator and denominator
are perfect squares; stands in for the numerics library's square root when a
computable instance is needed. -/
def ratSqrt (q : ℚ) : ℚ := (Nat.sqrt q.num.toNat : ℚ) / (Nat.sqrt q.den : ℚ)

/-- Concrete two-tailed p-value routine adequate at perfect correlation:
a perfect fit has p-value 0. -/
def pPerfect (_df : ℕ) (r : ℚ) : ℚ := if r = 1 ∨ r = -1 then 0 else 1

/-! ### Elementary facts about the moment sums -/

theorem sumFst_nil : sumFst [] = 0 := rfl

theorem sumSnd_nil : sumSnd [] = 0 := rfl

theorem sumFst_cons (p : ℚ × ℚ) (l : List (ℚ × ℚ)) :
    sumFst (p :: l) = p.1 + sumFst l := by
  simp [sumFst]

theorem sumSnd_cons (p : ℚ × ℚ) (l : List (ℚ × ℚ)) :
    sumSnd (p :: l) = p.2 + sumSnd l := by
  simp [sumSnd]

theorem sumXX_cons (p : ℚ × ℚ) (l : List (ℚ × ℚ)) :
    sumXX (p :: l) = p.1 * p.1 + sumXX l := by
  simp [sumXX]

theorem sumXY_cons (p : ℚ × ℚ) (l : List (ℚ × ℚ)) :
    sumXY (p :: l) = p.1 * p.2 + sumXY l := by
  simp [sumXY]

theorem sumYY_cons (p : ℚ × ℚ) (l : List (ℚ × ℚ)) :
    sumYY (p :: l) = p.2 * p.2 + sumYY l := by
  simp [sumYY]

/-- Expansion of the sum of squared residuals into the raw moment sums. -/
theorem sse_expand (l : List (ℚ × ℚ)) (a b : ℚ) :
    sse l a b = sumYY l - 2 * a * sumXY l - 2 * b * sumSnd l
      + a ^ 2 * sumXX l + 2 * a * b * sumFst l + (l.length : ℚ) * b ^ 2 := by
  induction l with
  | nil => simp [sse, sumYY, sumXY, sumSnd, sumXX, sumFst]
  | cons p l ih =>
    simp only [sse, List.map_cons, List.sum_cons, List.length_cons] at ih ⊢
    rw [ih, sumYY_cons, sumXY_cons, sumSnd_cons, sumXX_cons, sumFst_cons]
    push_cast
    ring

/-- Sum of squared deviations of the x components from a common value. -/
def sqDev (l : List (ℚ × ℚ)) (t : ℚ) : ℚ :=
  (l.map fun p => (p.1 - t) ^ 2).sum

theorem sqDev_nonneg (l : List (ℚ × ℚ)) (t : ℚ) : 0 ≤ sqDev l t := by
  refine List.sum_nonneg ?_
  intro q hq
  obtain ⟨p, _, rfl⟩ := List.mem_map.mp hq
  positivity

theorem sqDev_expand (l : List (ℚ × ℚ)) (t : ℚ) :
    sqDev l t = sumXX l - 2 * t * sumFst l + (l.length : ℚ) * t ^ 2 := by
  induction l with
  | nil => simp [sqDev, sumXX, sumFst]
  | cons p l ih =>
    simp only [sqDev, List.map_cons, List.sum_cons, List.length_cons] at ih ⊢
    rw [ih, sumXX_cons, sumFst_cons]
    push_cast
    ring

/-- Peeling one pair off the scaled x-variance. -/
theorem mA_cons (p : ℚ × ℚ) (l : List (ℚ × ℚ)) :
    mA (p :: l) = mA l + sqDev l p.1 := by
  rw [mA, mA, sqDev_expand, sumXX_cons, sumFst_cons, List.length_cons]
  push_cast
  ring

theorem mA_nil : mA [] = 0 := by simp [mA, sumXX, sumFst]

theorem mA_nonneg (l : List (ℚ × ℚ)) : 0 ≤ mA l := by
  induction l with
  | nil => rw [mA_nil]
  | cons p l ih =>
    rw [mA_cons]
    have := sqDev_nonneg l p.1
    linarith

/-- Two jointly-valid pairs with distinct x values force a positive scaled
x-variance (so the regression denominators are nonzero). -/
theorem mA_pos {l : List (ℚ × ℚ)} {p q : ℚ × ℚ}
    (hp : p ∈ l) (hq : q ∈ l) (hne : p.1 ≠ q.1) : 0 < mA l := by
  induction l with
  | nil => cases hp
  | cons hd tl ih =>
    rw [mA_cons]
    have hA := mA_nonneg tl
    rcases List.mem_cons.mp hp with hp1 | hp2 <;>
      rcases List.mem_cons.mp hq with hq1 | hq2
    · exact absurd (hp1 ▸ hq1 ▸ rfl) hne
    · have hmem : (q.1 - hd.1) ^ 2 ∈ tl.map fun r => (r.1 - hd.1) ^ 2 :=
        List.mem_map.mpr ⟨q, hq2, rfl⟩
      have hle : (q.1 - hd.1) ^ 2 ≤ sqDev tl hd.1 := by
        refine List.single_le_sum ?_ _ hmem
        intro r hr
        obtain ⟨s, _, rfl⟩ := List.mem_map.mp hr
        positivity
      have hpos : 0 < (q.1 - hd.1) ^ 2 := by
        have : q.1 - hd.1 ≠ 0 := by
          intro h
          exact hne (by rw [hp1]; linarith [sub_eq_zero.mp h])
        positivity
      linarith
    · have hmem : (p.1 - hd.1) ^ 2 ∈ tl.map fun r => (r.1 - hd.1) ^ 2 :=
        List.mem_map.mpr ⟨p, hp2, rfl⟩
      have hle : (p.1 - hd.1) ^ 2 ≤ sqDev tl hd.1 := by
        refine List.single_le_sum ?_ _ hmem
        intro r hr
        obtain ⟨s, _, rfl⟩ := List.mem_map.mp hr
        positivity
      have hpos : 0 < (p.1 - hd.1) ^ 2 := by
        have : p.1 - hd.1 ≠ 0 := by
          intro h
          exact hne (by rw [hq1]; linarith [sub_eq_zero.mp h])
        positivity
      linarith
    · have := sqDev_nonneg tl hd.1
      have := ih hp2 hq2
      linarith

/-- All jointly-valid x values equal forces a zero scaled x-variance. -/
theorem mA_allEq {l : List (ℚ × ℚ)} {c : ℚ}
    (h : ∀ p ∈ l, (p : ℚ × ℚ).1 = c) : mA l = 0 := by
  induction l with
  | nil => exact mA_nil
  | cons hd tl ih =>
    rw [mA_cons, ih fun p hp => h p (List.mem_cons_of_mem _ hp)]
    have hz : sqDev tl hd.1 = 0 := by
      refine List.sum_eq_zero ?_
      intro q hq
      obtain ⟨p, hp, rfl⟩ := List.mem_map.mp hq
      rw [h p (List.mem_cons_of_mem _ hp), h hd (List.mem_cons_self hd tl)]
      ring
    rw [hz, add_zero]

/-- Completing-the-square identity behind the least-squares fit:
`A·n·SSE(a,b) = (A·a − B)² + (A·C − B²) + A·(n·b + a·Σx − Σy)²`. -/
theorem sse_key (l : List (ℚ × ℚ)) (a b : ℚ) :
    mA l * ((l.length : ℚ) * sse l a b) =
      (mA l * a - mB l) ^ 2 + (mA l * mC l - (mB l) ^ 2)
        + mA l * ((l.length : ℚ) * b + a * sumFst l - sumSnd l) ^ 2 := by
  rw [sse_expand, mA, mB, mC]
  ring

/-- The slope returned by the regression kernel. -/
def lsSlope (l : List (ℚ × ℚ)) : ℚ := mB l / mA l

/-- The intercept returned by the regression kernel. -/
def lsIntercept (l : List (ℚ × ℚ)) : ℚ :=
  (sumSnd l - lsSlope l * sumFst l) / (l.length : ℚ)

theorem length_pos_of_mA_pos {l : List (ℚ × ℚ)} (h : 0 < mA l) :
    0 < (l.length : ℚ) := by
  cases l with
  | nil => rw [mA_nil] at h; exact absurd h (lt_irrefl 0)
  | cons p tl =>
    have : (0 : ℚ) < tl.length + 1 := by positivity
    simpa using this

/-- At the kernel's slope and intercept, the completed square collapses:
`A·n·SSE(ŝ,î) = A·C − B²`. -/
theorem sse_at_fit {l : List (ℚ × ℚ)} (hA : 0 < mA l) :
    mA l * ((l.length : ℚ) * sse l (lsSlope l) (lsIntercept l)) =
      mA l * mC l - (mB l) ^ 2 := by
  have hn : (0 : ℚ) < (l.length : ℚ) := length_pos_of_mA_pos hA
  rw [sse_key]
  have h1 : mA l * lsSlope l - mB l = 0 := by
    rw [lsSlope]
    field_simp
  have h2 : (l.length : ℚ) * lsIntercept l + lsSlope l * sumFst l - sumSnd l = 0 := by
    rw [lsIntercept]
    field_simp
  rw [h1, h2]
  ring

/-- The kernel's slope and intercept minimise the sum of squared residuals:
they are the ordinary least-squares fit. -/
theorem sse_min {l : List (ℚ × ℚ)} (hA : 0 < mA l) (a b : ℚ) :
    sse l (lsSlope l) (lsIntercept l) ≤ sse l a b := by
  have hn : (0 : ℚ) < (l.length : ℚ) := length_pos_of_mA_pos hA
  have hfit := sse_at_fit hA
  have hkey := sse_key l a b
  have hsq1 : 0 ≤ (mA l * a - mB l) ^ 2 := sq_nonneg _
  have hsq2 : 0 ≤ ((l.length : ℚ) * b + a * sumFst l - sumSnd l) ^ 2 := sq_nonneg _
  have hmul : 0 ≤ mA l * ((l.length : ℚ) * b + a * sumFst l - sumSnd l) ^ 2 :=
    mul_nonneg hA.le hsq2
  have hprod : 0 < mA l * (l.length : ℚ) := mul_pos hA hn
  have hle : mA l * ((l.length : ℚ) * sse l (lsSlope l) (lsIntercept l)) ≤
      mA l * ((l.length : ℚ) * sse l a b) := by
    rw [hfit, hkey]
    linarith
  have hle' : mA l * (l.length : ℚ) * sse l (lsSlope l) (lsIntercept l) ≤
      mA l * (l.length : ℚ) * sse l a b := by
    linarith [hle, mul_assoc (mA l) ((l.length : ℚ)) (sse l (lsSlope l) (lsIntercept l)),
      mul_assoc (mA l) ((l.length : ℚ)) (sse l a b)]
  exact le_of_mul_le_mul_left (by linarith [hle']) hprod

/-- Unfolding of the regression kernel on a non-degenerate input: at least two
jointly-valid pairs and nonzero x variance. -/
theorem linregressValid_eq (sqrtQ : ℚ → ℚ) (pFromR : ℕ → ℚ → ℚ)
    {l : List (ℚ × ℚ)} (h2 : 2 ≤ l.length) (hA : mA l ≠ 0) :
    linregressValid sqrtQ pFromR l =
      { slope := some (lsSlope l)
        intercept := some (lsIntercept l)
        rvalue := some (mB l / sqrtQ (mA l * mC l))
        pvalue := some (pFromR (l.length - 2) (mB l / sqrtQ (mA l * mC l)))
        stderr := some (sqrtQ (((1 - (mB l / sqrtQ (mA l * mC l)) ^ 2) * mC l)
          / (mA l * ((l.length : ℚ) - 2)))) } := by
  rw [linregressValid, if_neg (by omega), if_neg hA]
  rfl

/-- The regression kernel factors through the jointly-valid pairs, so any two
inputs with the same jointly-valid pairs get identical outputs. -/
theorem nan_linregress_congr (sqrtQ : ℚ → ℚ) (pFromR : ℕ → ℚ → ℚ)
    {x y x' y' : List Sample} (h : jointPairs x y = jointPairs x' y') :
    nan_linregress sqrtQ pFromR x y = nan_linregress sqrtQ pFromR x' y' := by
  rw [nan_linregress, nan_linregress, h]

/-- A position whose time is the missing marker is dropped from the
jointly-valid pairs no matter what height it carries. -/
theorem jointPairs_set_of_time_none :
    ∀ (x : List Sample) (i : ℕ) (y : List Sample) (v : Sample),
      x.get? i = some none → jointPairs x (y.set i v) = jointPairs x y := by
  intro x
  induction x with
  | nil => intro i y v h; simp at h
  | cons a x' ih =>
    intro i y v h
    cases i with
    | zero =>
      simp only [List.get?] at h
      cases y with
      | nil => rfl
      | cons b y' =>
        have ha : a = none := by injection h
        subst ha
        simp [jointPairs, List.set]
    | succ i =>
      simp only [List.get?] at h
      cases y with
      | nil => rfl
      | cons b y' =>
        simp only [List.set]
        have htail := ih i y' v h
        cases a with
        | none => simpa [jointPairs] using htail
        | some q =>
          cases b with
          | none => simpa [jointPairs] using htail
          | some r => simpa [jointPairs] using htail

/-! ### Facts about folded maxima and minima -/

theorem foldl_max_mem : ∀ (l : List ℚ) (a : ℚ), l.foldl max a = a ∨ l.foldl max a ∈ l := by
  intro l
  induction l with
  | nil => intro a; exact Or.inl rfl
  | cons b l ih =>
    intro a
    rcases ih (max a b) with h | h
    · rcases max_choice a b with hm | hm
      · exact Or.inl (by rw [List.foldl_cons, h, hm])
      · exact Or.inr (by rw [List.foldl_cons, h, hm]; exact List.mem_cons_self b l)
    · exact Or.inr (List.mem_cons_of_mem b h)

theorem le_foldl_max : ∀ (l : List ℚ) (a : ℚ),
    a ≤ l.foldl max a ∧ ∀ z ∈ l, z ≤ l.foldl max a := by
  intro l
  induction l with
  | nil => intro a; exact ⟨le_refl a, by intro z hz; cases hz⟩
  | cons b l ih =>
    intro a
    obtain ⟨h1, h2⟩ := ih (max a b)
    refine ⟨le_trans (le_max_left a b) h1, ?_⟩
    intro z hz
    rcases List.mem_cons.mp hz with rfl | hz'
    · exact le_trans (le_max_right a z) h1
    · exact h2 z hz'

theorem foldl_min_mem : ∀ (l : List ℚ) (a : ℚ), l.foldl min a = a ∨ l.foldl min a ∈ l := by
  intro l
  induction l with
  | nil => intro a; exact Or.inl rfl
  | cons b l ih =>
    intro a
    rcases ih (min a b) with h | h
    · rcases min_choice a b with hm | hm
      · exact Or.inl (by rw [List.foldl_cons, h, hm])
      · exact Or.inr (by rw [List.foldl_cons, h, hm]; exact List.mem_cons_self b l)
    · exact Or.inr (List.mem_cons_of_mem b h)

theorem foldl_min_le : ∀ (l : List ℚ) (a : ℚ),
    l.foldl min a ≤ a ∧ ∀ z ∈ l, l.foldl min a ≤ z := by
  intro l
  induction l with
  | nil => intro a; exact ⟨le_refl a, by intro z hz; cases hz⟩
  | cons b l ih =>
    intro a
    obtain ⟨h1, h2⟩ := ih (min a b)
    refine ⟨le_trans h1 (min_le_left a b), ?_⟩
    intro z hz
    rcases List.mem_cons.mp hz with rfl | hz'
    · exact le_trans h1 (min_le_right a z)
    · exact h2 z hz'

/-! ### The concrete scenario of spec §8 (scenario 3) -/

/-- Times 0..5 seconds expressed in nanoseconds, all valid. -/
def times6 : List Sample :=
  [some 0, some 1000000000, some 2000000000, some 3000000000,
   some 4000000000, some 5000000000]

/-- Heights 0..5 metres, all valid. -/
def heights6 : List Sample := [some 0, some 1, some 2, some 3, some 4, some 5]

theorem nat_sqrt_sq : Nat.sqrt 11025000000000000000000 = 105000000000 := by
  rw [show (11025000000000000000000 : ℕ) = 105000000000 * 105000000000 by norm_num]
  exact Nat.sqrt_eq 105000000000

theorem ratSqrt_val : ratSqrt 11025000000000000000000 = 105000000000 := by
  have h1 : (11025000000000000000000 : ℚ).num = 11025000000000000000000 := by norm_num
  have h2 : (11025000000000000000000 : ℚ).den = 1 := by norm_num
  rw [ratSqrt, h1, h2]
  rw [show ((11025000000000000000000 : ℤ).toNat) = 11025000000000000000000 from rfl]
  rw [nat_sqrt_sq, Nat.sqrt_one]
  norm_num

theorem ratSqrt_zero : ratSqrt 0 = 0 := by
  rw [ratSqrt]
  norm_num

theorem pPerfect_one (df : ℕ) : pPerfect df 1 = 0 := by
  rw [pPerfect, if_pos (Or.inl rfl)]

/-- Full evaluation of the regression stage on scenario 3, for any square-root
and p-value routines behaving correctly at the values this input reaches. -/
theorem scenario6_eval (sqrtQ : ℚ → ℚ) (pFromR : ℕ → ℚ → ℚ)
    (hs : sqrtQ 11025000000000000000000 = 105000000000)
    (h0 : sqrtQ 0 = 0) (hp : pFromR 4 1 = 0) :
    nan_linregress sqrtQ pFromR times6 heights6 =
      ⟨some (1 / 1000000000), some 0, some 1, some 0, some 0⟩ ∧
    dhdt_pipeline_slope sqrtQ pFromR times6 heights6 = some 31557600 := by
  have hl : jointPairs times6 heights6 =
      [(0, 0), (1000000000, 1), (2000000000, 2), (3000000000, 3),
       (4000000000, 4), (5000000000, 5)] := by
    norm_num [jointPairs, times6, heights6, List.filterMap_cons]
  have hmA : mA [((0 : ℚ), (0 : ℚ)), (1000000000, 1), (2000000000, 2),
      (3000000000, 3), (4000000000, 4), (5000000000, 5)] =
      105000000000000000000 := by
    norm_num [mA, sumXX, sumFst]
  have hmB : mB [((0 : ℚ), (0 : ℚ)), (1000000000, 1), (2000000000, 2),
      (3000000000, 3), (4000000000, 4), (5000000000, 5)] = 105000000000 := by
    norm_num [mB, sumXY, sumFst, sumSnd]
  have hmC : mC [((0 : ℚ), (0 : ℚ)), (1000000000, 1), (2000000000, 2),
      (3000000000, 3), (4000000000, 4), (5000000000, 5)] = 105 := by
    norm_num [mC, sumYY, sumSnd]
  have hmain : nan_linregress sqrtQ pFromR times6 heights6 =
      ⟨some (1 / 1000000000), some 0, some 1, some 0, some 0⟩ := by
    rw [nan_linregress, hl,
      linregressValid_eq sqrtQ pFromR (by decide) (by rw [hmA]; norm_num)]
    have hr : mB [((0 : ℚ), (0 : ℚ)), (1000000000, 1), (2000000000, 2),
        (3000000000, 3), (4000000000, 4), (5000000000, 5)] /
        sqrtQ (mA [((0 : ℚ), (0 : ℚ)), (1000000000, 1), (2000000000, 2),
          (3000000000, 3), (4000000000, 4), (5000000000, 5)] *
        mC [((0 : ℚ), (0 : ℚ)), (1000000000, 1), (2000000000, 2),
          (3000000000, 3), (4000000000, 4), (5000000000, 5)]) = 1 := by
      rw [hmA, hmB, hmC]
      norm_num [hs]
    simp only [LinFit.mk.injEq, Option.some.injEq]
    refine ⟨?_, ?_, ?_, ?_, ?_⟩
    · rw [lsSlope, hmA, hmB]; norm_num
    · rw [lsIntercept, lsSlope, hmA, hmB]
      norm_num [sumFst, sumSnd]
    · exact hr
    · rw [hr]
      simpa using hp
    · rw [hr, hmA, hmC]
      norm_num [h0]
  refine ⟨hmain, ?_⟩
  rw [dhdt_pipeline_slope, hmain]
  norm_num [dhdt_slope]

/-! ### The claims -/

/-- C1: for every pair of sequences with at least 2 jointly-valid (x, y) pairs
whose x values are not all identical, the regression kernel returns the
ordinary least-squares slope and intercept over the jointly-valid pairs (its
slope and intercept minimise the sum of squared residuals, exactly in the
rational model, hence within any relative tolerance), the correlation
coefficient computed as covariance over the root of the product of variances,
the two-tailed Student-t p-value on (n − 2) degrees of freedom of the
t-statistic derived from r, and the standard error of the slope computed from
the residual variance. -/
theorem claim_C1_regression_is_ols (sqrtQ : ℚ → ℚ) (pFromR : ℕ → ℚ → ℚ)
    (x y : List Sample)
    (h2 : 2 ≤ (jointPairs x y).length)
    (hvar : ∃ p ∈ jointPairs x y, ∃ q ∈ jointPairs x y, p.1 ≠ q.1) :
    nan_linregress sqrtQ pFromR x y =
      { slope := some (lsSlope (jointPairs x y))
        intercept := some (lsIntercept (jointPairs x y))
        rvalue := some (mB (jointPairs x y) /
          sqrtQ (mA (jointPairs x y) * mC (jointPairs x y)))
        pvalue := some (pFromR ((jointPairs x y).length - 2)
          (mB (jointPairs x y) / sqrtQ (mA (jointPairs x y) * mC (jointPairs x y))))
        stderr := some (sqrtQ (((1 - (mB (jointPairs x y) /
            sqrtQ (mA (jointPairs x y) * mC (jointPairs x y))) ^ 2) * mC (jointPairs x y))
          / (mA (jointPairs x y) * (((jointPairs x y).length : ℚ) - 2)))) } ∧
    ∀ a b : ℚ, sse (jointPairs x y) (lsSlope (jointPairs x y))
      (lsIntercept (jointPairs x y)) ≤ sse (jointPairs x y) a b := by
  obtain ⟨p, hp, q, hq, hne⟩ := hvar
  have hA : 0 < mA (jointPairs x y) := mA_pos hp hq hne
  exact ⟨linregressValid_eq sqrtQ pFromR h2 hA.ne', fun a b => sse_min hA a b⟩

/-- Witness for C1 at x = y = [0, 1] with the concrete routines. -/
theorem claim_C1_witness :
    nan_linregress ratSqrt pPerfect [some 0, some 1] [some 0, some 1] =
      { slope := some (lsSlope (jointPairs [some 0, some 1] [some 0, some 1]))
        intercept := some (lsIntercept (jointPairs [some 0, some 1] [some 0, some 1]))
        rvalue := some (mB (jointPairs [some 0, some 1] [some 0, some 1]) /
          ratSqrt (mA (jointPairs [some 0, some 1] [some 0, some 1]) *
            mC (jointPairs [some 0, some 1] [some 0, some 1])))
        pvalue := some (pPerfect ((jointPairs [some 0, some 1] [some 0, some 1]).length - 2)
          (mB (jointPairs [some 0, some 1] [some 0, some 1]) /
            ratSqrt (mA (jointPairs [some 0, some 1] [some 0, some 1]) *
              mC (jointPairs [some 0, some 1] [some 0, some 1]))))
        stderr := some (ratSqrt (((1 - (mB (jointPairs [some 0, some 1] [some 0, some 1]) /
            ratSqrt (mA (jointPairs [some 0, some 1] [some 0, some 1]) *
              mC (jointPairs [some 0, some 1] [some 0, some 1]))) ^ 2) *
            mC (jointPairs [some 0, some 1] [some 0, some 1]))
          / (mA (jointPairs [some 0, some 1] [some 0, some 1]) *
            (((jointPairs [some 0, some 1] [some 0, some 1]).length : ℚ) - 2)))) } ∧
    ∀ a b : ℚ, sse (jointPairs [some 0, some 1] [some 0, some 1])
      (lsSlope (jointPairs [some 0, some 1] [some 0, some 1]))
      (lsIntercept (jointPairs [some 0, some 1] [some 0, some 1])) ≤
      sse (jointPairs [some 0, some 1] [some 0, some 1]) a b :=
  claim_C1_regression_is_ols ratSqrt pPerfect [some 0, some 1] [some 0, some 1]
    (by norm_num [jointPairs, List.filterMap_cons])
    ⟨(0, 0), by norm_num [jointPairs, List.filterMap_cons],
      (1, 1), by norm_num [jointPairs, List.filterMap_cons], by norm_num⟩

/-- C2: the range kernel returns the explicit invalid marker (not zero, not an
error) when no valid element exists, and otherwise the maximum valid element
minus the minimum valid element; with exactly one valid element it returns 0. -/
theorem claim_C2_range_kernel (a : List Sample) :
    (a.filterMap id = [] → nanptp a = none) ∧
    (∀ v, a.filterMap id = [v] → nanptp a = some 0) ∧
    (∀ v vs, a.filterMap id = v :: vs →
      ∃ M m, nanptp a = some (M - m) ∧ M ∈ v :: vs ∧ m ∈ v :: vs ∧
        ∀ z ∈ v :: vs, m ≤ z ∧ z ≤ M) := by
  refine ⟨?_, ?_, ?_⟩
  · intro h
    simp [nanptp, h]
  · intro v h
    simp [nanptp, h]
  · intro v vs h
    refine ⟨vs.foldl max v, vs.foldl min v, by simp [nanptp, h], ?_, ?_, ?_⟩
    · rcases foldl_max_mem vs v with h1 | h1
      · rw [h1]; exact List.mem_cons_self v vs
      · exact List.mem_cons_of_mem v h1
    · rcases foldl_min_mem vs v with h1 | h1
      · rw [h1]; exact List.mem_cons_self v vs
      · exact List.mem_cons_of_mem v h1
    · intro z hz
      rcases List.mem_cons.mp hz with rfl | hz'
      · exact ⟨(foldl_min_le vs z).1, (le_foldl_max vs z).1⟩
      · exact ⟨(foldl_min_le vs v).2 z hz', (le_foldl_max vs v).2 z hz'⟩

/-- Witness for C2: a sequence with exactly one valid sample has range 0. -/
theorem claim_C2_witness : nanptp [none, some 3] = some 0 :=
  (claim_C2_range_kernel [none, some 3]).2.1 3 (by norm_num [List.filterMap_cons])

/-- C3: with fewer than 2 jointly-valid pairs the regression kernel returns
the all-invalid five-tuple; the kernel is a total function, so a degenerate
point never aborts the batch. -/
theorem claim_C3_too_few_pairs (sqrtQ : ℚ → ℚ) (pFromR : ℕ → ℚ → ℚ)
    (x y : List Sample) (h : (jointPairs x y).length < 2) :
    nan_linregress sqrtQ pFromR x y = invalidFit := by
  rw [nan_linregress, linregressValid, if_pos h]

/-- Witness for C3: a single jointly-valid pair yields the invalid result. -/
theorem claim_C3_witness :
    nan_linregress ratSqrt pPerfect [some 1, none] [some 2, some 5] = invalidFit :=
  claim_C3_too_few_pairs ratSqrt pPerfect [some 1, none] [some 2, some 5]
    (by norm_num [jointPairs, List.filterMap_cons])

/-- C4: when the jointly-valid x values are all identical (zero time variance)
the regression kernel returns the all-invalid five-tuple; the zero-variance
branch is taken before any quotient is formed. -/
theorem claim_C4_zero_time_variance (sqrtQ : ℚ → ℚ) (pFromR : ℕ → ℚ → ℚ)
    (x y : List Sample)
    (h : ∀ p ∈ jointPairs x y, ∀ q ∈ jointPairs x y, p.1 = q.1) :
    nan_linregress sqrtQ pFromR x y = invalidFit := by
  rw [nan_linregress, linregressValid]
  by_cases hlen : (jointPairs x y).length < 2
  · rw [if_pos hlen]
  · rw [if_neg hlen]
    have hA : mA (jointPairs x y) = 0 := by
      cases hl : jointPairs x y with
      | nil => exact mA_nil
      | cons p tl =>
        refine mA_allEq (c := p.1) ?_
        intro q hq
        rw [hl] at h
        exact h q hq p (List.mem_cons_self p tl)
    rw [if_pos hA]

/-- Witness for C4: two pairs sharing the time value 5. -/
theorem claim_C4_witness :
    nan_linregress ratSqrt pPerfect [some 5, some 5] [some 1, some 2] = invalidFit :=
  claim_C4_zero_time_variance ratSqrt pPerfect [some 5, some 5] [some 1, some 2]
    (by norm_num [jointPairs, List.filterMap_cons, List.forall_mem_cons])

/-- C5: the per-year slope is the per-nanosecond slope times the single fixed
constant 365.25 · 24 · 60 · 60 · 10⁹ = 31557600000000000, applied uniformly to
the kernel's slope output as a pure post-processing step. -/
theorem claim_C5_year_rescale (sqrtQ : ℚ → ℚ) (pFromR : ℕ → ℚ → ℚ)
    (x y : List Sample) :
    (∀ s : ℚ, dhdt_slope s = s * 31557600000000000) ∧
    dhdt_pipeline_slope sqrtQ pFromR x y =
      Option.map (fun s => s * 31557600000000000)
        (nan_linregress sqrtQ pFromR x y).slope := by
  constructor
  · intro s
    rw [dhdt_slope]
    norm_num
  · rw [dhdt_pipeline_slope]
    cases (nan_linregress sqrtQ pFromR x y).slope with
    | none => rfl
    | some s =>
      simp only [Option.map_some']
      rw [dhdt_slope]
      norm_num

/-- Witness for C5 at a concrete input. -/
theorem claim_C5_witness :
    (∀ s : ℚ, dhdt_slope s = s * 31557600000000000) ∧
    dhdt_pipeline_slope ratSqrt pPerfect [some 0, some 1] [some 0, some 1] =
      Option.map (fun s => s * 31557600000000000)
        (nan_linregress ratSqrt pPerfect [some 0, some 1] [some 0, some 1]).slope :=
  claim_C5_year_rescale ratSqrt pPerfect [some 0, some 1] [some 0, some 1]

/-- C6 (amended): on times [0, 1e9, …, 5e9] ns and heights [0, …, 5] m the
regression kernel yields slope 1e-9 m/ns, intercept 0, r = 1, p-value 0 and
standard error 0, and the year rescaling yields 31 557 600 metres/year
(3.15576e7, not the 31.5576 of the claim), for any square-root and p-value
routines behaving correctly at the values this input reaches. -/
theorem claim_C6_scenario3 (sqrtQ : ℚ → ℚ) (pFromR : ℕ → ℚ → ℚ)
    (hs : sqrtQ 11025000000000000000000 = 105000000000)
    (h0 : sqrtQ 0 = 0) (hp : pFromR 4 1 = 0) :
    nan_linregress sqrtQ pFromR times6 heights6 =
      ⟨some (1 / 1000000000), some 0, some 1, some 0, some 0⟩ ∧
    dhdt_pipeline_slope sqrtQ pFromR times6 heights6 = some 31557600 :=
  scenario6_eval sqrtQ pFromR hs h0 hp

/-- Counterexample for C6 as stated: the rescaled slope on scenario 3 is
31 557 600 metres/year, not within even a tolerance of 10⁶ of the claimed
31.5576 metres/year. -/
theorem claim_C6_counterexample :
    dhdt_pipeline_slope ratSqrt pPerfect times6 heights6 = some 31557600 ∧
    ¬ |(31557600 : ℚ) - 31.5576| ≤ 1000000 := by
  refine ⟨(scenario6_eval ratSqrt pPerfect ratSqrt_val ratSqrt_zero
    (pPerfect_one 4)).2, ?_⟩
  rw [abs_sub_comm, abs_of_nonpos (by norm_num)]
  norm_num

/-- Witness for the amended C6 with the concrete routines. -/
theorem claim_C6_witness :
    nan_linregress ratSqrt pPerfect times6 heights6 =
      ⟨some (1 / 1000000000), some 0, some 1, some 0, some 0⟩ ∧
    dhdt_pipeline_slope ratSqrt pPerfect times6 heights6 = some 31557600 :=
  claim_C6_scenario3 ratSqrt pPerfect ratSqrt_val ratSqrt_zero (pPerfect_one 4)

/-- C7: the regression kernel uses only the index positions where both the
time and the height are valid — its output is a function of the jointly-valid
pairs alone, and a cycle whose time is missing contributes nothing, whatever
height value it carries. -/
theorem claim_C7_joint_validity (sqrtQ : ℚ → ℚ) (pFromR : ℕ → ℚ → ℚ)
    (x y : List Sample) (i : ℕ) (hx : x.get? i = some none) :
    (∀ v : Sample, nan_linregress sqrtQ pFromR x (y.set i v) =
      nan_linregress sqrtQ pFromR x y) ∧
    (∀ x' y' : List Sample, jointPairs x' y' = jointPairs x y →
      nan_linregress sqrtQ pFromR x' y' = nan_linregress sqrtQ pFromR x y) := by
  constructor
  · intro v
    exact nan_linregress_congr sqrtQ pFromR (jointPairs_set_of_time_none x i y v hx)
  · intro x' y' h
    exact nan_linregress_congr sqrtQ pFromR h

/-- Witness for C7: position 0 of the times is missing, so overwriting the
height there changes nothing. -/
theorem claim_C7_witness :
    (∀ v : Sample, nan_linregress ratSqrt pPerfect [none, some 1, some 2]
        ([some 9, some 1, some 2].set 0 v) =
      nan_linregress ratSqrt pPerfect [none, some 1, some 2] [some 9, some 1, some 2]) ∧
    (∀ x' y' : List Sample,
      jointPairs x' y' = jointPairs [none, some 1, some 2] [some 9, some 1, some 2] →
      nan_linregress ratSqrt pPerfect x' y' =
        nan_linregress ratSqrt pPerfect [none, some 1, some 2] [some 9, some 1, some 2]) :=
  claim_C7_joint_validity ratSqrt pPerfect [none, some 1, some 2]
    [some 9, some 1, some 2] 0 rfl

/-- C8 (amended): a point is retained for the range computation exactly when
it has at least 2 valid heights, and retained for the regression exactly when
its height range is a valid value STRICTLY greater than the 0.5 threshold
(a range equal to the threshold, or an invalid range, is dropped). -/
theorem claim_C8_thresholds (pts : List (List Sample)) (p : List Sample) :
    (p ∈ dropna_thresh 2 pts ↔ p ∈ pts ∧ 2 ≤ (p.filterMap id).length) ∧
    (p ∈ where_hrange (1 / 2) pts ↔
      p ∈ pts ∧ ∃ r, nanptp p = some r ∧ 1 / 2 < r) := by
  constructor
  · rw [dropna_thresh, List.mem_filter]
    simp
  · rw [where_hrange, List.mem_filter]
    constructor
    · rintro ⟨hmem, hcond⟩
      cases h : nanptp p with
      | none => rw [h] at hcond; simp at hcond
      | some r =>
        rw [h] at hcond
        exact ⟨hmem, r, rfl, by simpa using hcond⟩
    · rintro ⟨hmem, r, hr, hlt⟩
      refine ⟨hmem, ?_⟩
      rw [hr]
      simpa using hlt

/-- Counterexample for C8 as stated: a point whose height range equals the
0.5 threshold meets the minimum but is dropped by the strict comparison. -/
theorem claim_C8_counterexample :
    nanptp [some 0, some (1 / 2)] = some (1 / 2) ∧
    (1 / 2 : ℚ) ≥ 1 / 2 ∧
    where_hrange (1 / 2) [[some 0, some (1 / 2)]] = [] := by
  refine ⟨?_, le_refl _, ?_⟩
  · norm_num [nanptp, List.filterMap_cons, max_def, min_def]
  · norm_num [where_hrange, List.filter_cons, nanptp, List.filterMap_cons,
      max_def, min_def]

/-- Witness for the amended C8: a point with two valid heights and range 1 is
retained by both filters. -/
theorem claim_C8_witness :
    [some 0, some 1] ∈ dropna_thresh 2 [[some 0, some 1]] ∧
    [some 0, some 1] ∈ where_hrange (1 / 2) [[some 0, some 1]] :=
  ⟨(claim_C8_thresholds [[some 0, some 1]] [some 0, some 1]).1.mpr
      ⟨by simp, by norm_num [List.filterMap_cons]⟩,
    (claim_C8_thresholds [[some 0, some 1]] [some 0, some 1]).2.mpr
      ⟨by simp, 1, by norm_num [nanptp, List.filterMap_cons, max_def, min_def],
        by norm_num⟩⟩

/-- C9: the regression kernel's five-tuple is never partially valid — either
all five outputs carry values or the result is the all-invalid sentinel. -/
theorem claim_C9_all_or_nothing (sqrtQ : ℚ → ℚ) (pFromR : ℕ → ℚ → ℚ)
    (x y : List Sample) :
    (∃ s i r p e, nan_linregress sqrtQ pFromR x y =
      ⟨some s, some i, some r, some p, some e⟩) ∨
    nan_linregress sqrtQ pFromR x y = invalidFit := by
  rw [nan_linregress, linregressValid]
  split
  · exact Or.inr rfl
  · split
    · exact Or.inr rfl
    · exact Or.inl ⟨_, _, _, _, _, rfl⟩

/-- Witness for C9 at a concrete input. -/
theorem claim_C9_witness :
    (∃ s i r p e, nan_linregress ratSqrt pPerfect [some 1, none] [some 2, some 5] =
      ⟨some s, some i, some r, some p, some e⟩) ∨
    nan_linregress ratSqrt pPerfect [some 1, none] [some 2, some 5] = invalidFit :=
  claim_C9_all_or_nothing ratSqrt pPerfect [some 1, none] [some 2, some 5]

/-- C10: both kernels are deterministic pure functions of their inputs in this
model; mapping them over a batch commutes with any reordering of the batch,
and calling a kernel twice on the same input yields two identical outputs, so
invocations may be reordered, retried or recomputed without changing results. -/
theorem claim_C10_pure_kernels (sqrtQ : ℚ → ℚ) (pFromR : ℕ → ℚ → ℚ)
    (pts pts' : List (List Sample × List Sample)) (hperm : pts.Perm pts')
    (hs hs' : List (List Sample)) (hpermh : hs.Perm hs') :
    (pts.map fun p => nan_linregress sqrtQ pFromR p.1 p.2).Perm
      (pts'.map fun p => nan_linregress sqrtQ pFromR p.1 p.2) ∧
    (hs.map nanptp).Perm (hs'.map nanptp) ∧
    (∀ a : List Sample, (List.replicate 2 a).map nanptp =
      List.replicate 2 (nanptp a)) ∧
    (∀ x y : List Sample,
      (List.replicate 2 (x, y)).map (fun p => nan_linregress sqrtQ pFromR p.1 p.2) =
        List.replicate 2 (nan_linregress sqrtQ pFromR x y)) := by
  refine ⟨hperm.map _, hpermh.map _, ?_, ?_⟩
  · intro a
    simp [List.map_replicate]
  · intro x y
    simp [List.map_replicate]

/-- Witness for C10: a two-point batch processed in reversed order. -/
theorem claim_C10_witness :
    ([([some 1], [some 2]), ([some 3], [some 4])].map
        fun p => nan_linregress ratSqrt pPerfect p.1 p.2).Perm
      ([([some 1], [some 2]), ([some 3], [some 4])].reverse.map
        fun p => nan_linregress ratSqrt pPerfect p.1 p.2) :=
  (claim_C10_pure_kernels ratSqrt pPerfect
    [([some 1], [some 2]), ([some 3], [some 4])]
    [([some 1], [some 2]), ([some 3], [some 4])].reverse
    ([([some 1], [some 2]), ([some 3], [some 4])].reverse_perm).symm
    [[some 1]] [[some 1]] (List.Perm.refl _)).1

end DeepIceDrain
